import Mathlib

/-!
Verification of the identifier normalization and quoting engine of the
snowflake-sqlalchemy dialect (`src/base.py`), shallowly embedded in Lean.

Strings are modelled as `List Char` (the relevant case folding is ASCII:
`str.lower`/`str.upper` on the identifiers concerned coincide with the
ASCII fold `Char.toLower`/`Char.toUpper`).  The value flowing through
`normalize_name`/`denormalize_name` is either a plain string or a
`quoted_name` carrying an explicit quote flag; both are represented by
`quoted_name` below, with `quote = false` for plain strings.
-/

/-- Character class tests, by ASCII code (`[A-Z]`, `[a-z]`, `[0-9]`). -/
def isUpperAlpha (c : Char) : Bool :=
  65 ≤ c.toNat && c.toNat ≤ 90

/-- Lowercase ASCII letter `[a-z]`. -/
def isLowerAlpha (c : Char) : Bool :=
  97 ≤ c.toNat && c.toNat ≤ 122

/-- ASCII digit `[0-9]`. -/
def isDigitChar (c : Char) : Bool :=
  48 ≤ c.toNat && c.toNat ≤ 57

/-- Modelled from the spec: a character legal in a bare identifier,
the class `[A-Za-z0-9_$]` (codes 95 = `_`, 36 = `$`). -/
def legalChar (c : Char) : Bool :=
  isUpperAlpha c || isLowerAlpha c || isDigitChar c || c.toNat = 95 || c.toNat = 36

/-- Modelled from the spec: a character a bare identifier may start with,
a letter or underscore. -/
def legalFirstChar (c : Char) : Bool :=
  isUpperAlpha c || isLowerAlpha c || c.toNat = 95

/-- `RESERVED_WORDS` from `src/base.py` lines 21-75, verbatim. -/
def RESERVED_WORDS : List String :=
  ["ALL", "ALTER", "AND", "ANY", "AS", "BETWEEN", "BY", "CHECK", "COLUMN",
   "CONNECT", "CREATE", "CURRENT", "DELETE", "DISTINCT", "DROP", "ELSE",
   "EXISTS", "FOR", "FROM", "GRANT", "GROUP", "HAVING", "IN", "INSERT",
   "INTERSECT", "INTO", "IS", "LIKE", "NOT", "NULL", "OF", "ON", "OR",
   "ORDER", "REVOKE", "ROW", "ROWS", "SELECT", "SET", "START", "TABLE",
   "THEN", "TO", "TRIGGER", "UNION", "UNIQUE", "UPDATE", "VALUES",
   "WHENEVER", "WHERE", "WITH",
   "REGEXP", "RLIKE", "SOME",
   "MINUS", "INCREMENT"]

/-- The lower-cased reserved word set
(`reserved_words = set([x.lower() for x in RESERVED_WORDS])`,
`src/base.py` line 127). -/
def reserved_words : List (List Char) :=
  RESERVED_WORDS.map (fun w => w.toList.map Char.toLower)

/-- Modelled from the spec: `requires_quoting` (the preparer's quoting test,
inherited from the toolkit and absent from `src/`), following section 4.1:
quoting is required iff the lower-cased identifier is a reserved word, or
some character falls outside `[A-Za-z0-9_$]`, or the identifier does not
start with a letter or underscore (in particular when it is empty), or its
case is mixed. -/
def requires_quotes (s : List Char) : Bool :=
  reserved_words.contains (s.map Char.toLower)
  || !(s.all legalChar)
  || (match s with
      | [] => true
      | c :: _ => !(legalFirstChar c))
  || (s.any isUpperAlpha && s.any isLowerAlpha)

/-- An identifier value: its text and its explicit quote flag.  A plain
string is represented with `quote = false`; `normalize_name` produces
flagged values with `quote = true`. -/
structure quoted_name where
  s : List Char
  quote : Bool
deriving DecidableEq, Repr

/-- Modelled from the spec: lower-casing an identifier value.  An
explicitly quoted identifier is preserved verbatim (the spec stores quoted
identifiers byte-for-byte and always re-quotes them); a plain string is
folded characterwise. -/
def quoted_name.lower (n : quoted_name) : quoted_name :=
  if n.quote then n else ⟨n.s.map Char.toLower, n.quote⟩

/-- Modelled from the spec: upper-casing an identifier value, symmetric to
`quoted_name.lower`. -/
def quoted_name.upper (n : quoted_name) : quoted_name :=
  if n.quote then n else ⟨n.s.map Char.toUpper, n.quote⟩

/-- `SnowflakeDialect.normalize_name`, `src/base.py` lines 317-326.
String comparisons (`==` in Python) compare the text only, hence the
`.s` projections. -/
def normalize_name : Option quoted_name → Option quoted_name
  | none => none
  | some n =>
    if (n.upper).s = n.s ∧ requires_quotes ((n.lower).s) = false then
      some n.lower
    else if (n.lower).s = n.s then
      some ⟨n.s, true⟩
    else
      some n

/-- `SnowflakeDialect.denormalize_name`, `src/base.py` lines 328-334. -/
def denormalize_name : Option quoted_name → Option quoted_name
  | none => none
  | some n =>
    if (n.lower).s = n.s ∧ requires_quotes ((n.lower).s) = false then
      some n.upper
    else
      some n

/-- Modelled from the spec: doubling every embedded quote character for
escaping inside a quoted identifier. -/
def escape_quotes (s : List Char) : List Char :=
  s.flatMap (fun c => if c = '"' then ['"', '"'] else [c])

/-- Modelled from the spec: `quote_if_needed` (the preparer's `quote`,
inherited from the toolkit and absent from `src/`): wrap in the quote
character `"` with embedded quotes doubled when quoting is required or the
value carries the explicit quote flag, otherwise return the text
unchanged. -/
def quote_if_needed (i : quoted_name) : List Char :=
  if i.quote || requires_quotes i.s then
    '"' :: escape_quotes i.s ++ ['"']
  else
    i.s

/-- `SnowflakeIdentifierPreparer._quote_free_identifiers`, `src/base.py`
lines 137-141: quote every non-`None` argument. -/
def _quote_free_identifiers (ids : List (Option quoted_name)) : List (List Char) :=
  (ids.filterMap id).map quote_if_needed

/-- `SnowflakeDialect._denormalize_quote_join`, `src/base.py` lines
336-338: join the quoted parts with `.`. -/
def _denormalize_quote_join (idents : List (Option quoted_name)) : List Char :=
  List.intercalate ['.'] (_quote_free_identifiers idents)

/-- Extend the first field of a split result with one more character. -/
def splitConsFirst (c : Char) : List (List Char) → List (List Char)
  | [] => [[c]]
  | h :: t => (c :: h) :: t

/-- Python's `str.split(sep)` for a one-character separator. -/
def splitOnChar (sep : Char) : List Char → List (List Char)
  | [] => [[]]
  | c :: rest =>
    if c = sep then [] :: splitOnChar sep rest
    else splitConsFirst c (splitOnChar sep rest)

/-- The `database` option handling of `SnowflakeDialect.create_connect_args`,
`src/base.py` lines 270-281: split on `/`; one part leaves the option
unchanged, two parts become database and schema, more raise
`ArgumentError` (modelled as `none`). -/
def create_connect_args_database (database : List Char) :
    Option (List Char × Option (List Char)) :=
  match splitOnChar '/' database with
  | [_] => some (database, none)
  | [d, s] => some (d, some s)
  | _ => none

/-! ### Character-level helper lemmas -/

theorem char_toNat_ofNat {n : Nat} (h : n < 55296) : (Char.ofNat n).toNat = n := by
  rw [Char.ofNat, dif_pos (Or.inl h)]
  rfl

theorem char_eq_of_toNat_eq {a b : Char} (h : a.toNat = b.toNat) : a = b := by
  have h2 := congrArg Char.ofNat h
  rwa [Char.ofNat_toNat, Char.ofNat_toNat] at h2

theorem toNat_toLower (c : Char) :
    (Char.toLower c).toNat =
      if c.toNat ≥ 65 ∧ c.toNat ≤ 90 then c.toNat + 32 else c.toNat := by
  show (if c.toNat ≥ 65 ∧ c.toNat ≤ 90 then Char.ofNat (c.toNat + 32) else c).toNat = _
  by_cases h : c.toNat ≥ 65 ∧ c.toNat ≤ 90
  · rw [if_pos h, if_pos h]
    exact char_toNat_ofNat (by omega)
  · rw [if_neg h, if_neg h]

theorem toNat_toUpper (c : Char) :
    (Char.toUpper c).toNat =
      if c.toNat ≥ 97 ∧ c.toNat ≤ 122 then c.toNat - 32 else c.toNat := by
  show (if c.toNat ≥ 97 ∧ c.toNat ≤ 122 then Char.ofNat (c.toNat - 32) else c).toNat = _
  by_cases h : c.toNat ≥ 97 ∧ c.toNat ≤ 122
  · rw [if_pos h, if_pos h]
    exact char_toNat_ofNat (by omega)
  · rw [if_neg h, if_neg h]

theorem toLower_toLower (c : Char) : Char.toLower (Char.toLower c) = Char.toLower c := by
  apply char_eq_of_toNat_eq
  simp only [toNat_toLower]
  split_ifs <;> omega

theorem toUpper_toUpper (c : Char) : Char.toUpper (Char.toUpper c) = Char.toUpper c := by
  apply char_eq_of_toNat_eq
  simp only [toNat_toUpper]
  split_ifs <;> omega

theorem toUpper_toLower_of_fix {c : Char} (h : Char.toUpper c = c) :
    Char.toUpper (Char.toLower c) = c := by
  have h2 : (Char.toUpper c).toNat = c.toNat := congrArg Char.toNat h
  rw [toNat_toUpper] at h2
  apply char_eq_of_toNat_eq
  simp only [toNat_toUpper, toNat_toLower]
  split_ifs at h2 ⊢ <;> omega

theorem legalChar_toLower (c : Char) : legalChar (Char.toLower c) = legalChar c := by
  rw [Bool.eq_iff_iff]
  simp only [legalChar, isUpperAlpha, isLowerAlpha, isDigitChar, Bool.or_eq_true,
    Bool.and_eq_true, decide_eq_true_eq, toNat_toLower]
  split_ifs <;> omega

theorem legalFirstChar_toLower (c : Char) :
    legalFirstChar (Char.toLower c) = legalFirstChar c := by
  rw [Bool.eq_iff_iff]
  simp only [legalFirstChar, isUpperAlpha, isLowerAlpha, Bool.or_eq_true,
    Bool.and_eq_true, decide_eq_true_eq, toNat_toLower]
  split_ifs <;> omega

theorem isUpperAlpha_toLower (c : Char) : isUpperAlpha (Char.toLower c) = false := by
  rw [Bool.eq_false_iff]
  intro h
  simp only [isUpperAlpha, Bool.and_eq_true, decide_eq_true_eq, toNat_toLower] at h
  split_ifs at h <;> omega

theorem isLowerAlpha_of_toUpper_ne {c : Char} (h : Char.toUpper c ≠ c) :
    isLowerAlpha c = true := by
  simp only [isLowerAlpha, Bool.and_eq_true, decide_eq_true_eq]
  by_contra hc
  exact h (char_eq_of_toNat_eq (by rw [toNat_toUpper, if_neg (by omega)]))

theorem isUpperAlpha_of_toLower_ne {c : Char} (h : Char.toLower c ≠ c) :
    isUpperAlpha c = true := by
  simp only [isUpperAlpha, Bool.and_eq_true, decide_eq_true_eq]
  by_contra hc
  exact h (char_eq_of_toNat_eq (by rw [toNat_toLower, if_neg (by omega)]))

/-! ### List-level helper lemmas -/

theorem map_eq_self_iff_forall {f : Char → Char} {l : List Char} :
    l.map f = l ↔ ∀ x ∈ l, f x = x := by
  induction l with
  | nil => simp
  | cons c t ih => simp [ih]

theorem map_toLower_idem (s : List Char) :
    (s.map Char.toLower).map Char.toLower = s.map Char.toLower := by
  rw [List.map_map]
  exact List.map_congr_left (fun a _ => toLower_toLower a)

theorem all_legalChar_map_toLower (s : List Char) :
    (s.map Char.toLower).all legalChar = s.all legalChar := by
  induction s with
  | nil => rfl
  | cons c t ih => simp [List.all_cons, legalChar_toLower, ih]

theorem any_isUpperAlpha_map_toLower (s : List Char) :
    (s.map Char.toLower).any isUpperAlpha = false := by
  induction s with
  | nil => rfl
  | cons c t ih => simp [List.any_cons, isUpperAlpha_toLower, ih]

/-- Quoting required on the lower-cased text implies quoting required on
the original: the reserved-word, character-class and first-character tests
are invariant under lower-casing, and the mixed-case test is vacuous on
lower-cased text. -/
theorem requires_quotes_mono (s : List Char)
    (h : requires_quotes (s.map Char.toLower) = true) : requires_quotes s = true := by
  unfold requires_quotes at h ⊢
  simp only [Bool.or_eq_true] at h ⊢
  rcases h with ((h | h) | h) | h
  · rw [map_toLower_idem] at h
    exact Or.inl (Or.inl (Or.inl h))
  · rw [Bool.not_eq_true', all_legalChar_map_toLower, ← Bool.not_eq_true'] at h
    exact Or.inl (Or.inl (Or.inr h))
  · refine Or.inl (Or.inr ?_)
    match s with
    | [] => exact h
    | c :: t =>
      simp only [List.map_cons] at h
      rwa [Bool.not_eq_true', legalFirstChar_toLower, ← Bool.not_eq_true'] at h
  · rw [Bool.and_eq_true, any_isUpperAlpha_map_toLower] at h
    exact absurd h.1 (by simp)

/-! ### Helper lemmas about identifier values and the two name maps -/

theorem lower_of_quoted {n : quoted_name} (h : n.quote = true) : n.lower = n := by
  simp [quoted_name.lower, h]

theorem upper_of_quoted {n : quoted_name} (h : n.quote = true) : n.upper = n := by
  simp [quoted_name.upper, h]

theorem lower_of_plain {n : quoted_name} (h : n.quote = false) :
    n.lower = ⟨n.s.map Char.toLower, false⟩ := by
  simp [quoted_name.lower, h]

theorem upper_of_plain {n : quoted_name} (h : n.quote = false) :
    n.upper = ⟨n.s.map Char.toUpper, false⟩ := by
  simp [quoted_name.upper, h]

theorem upper_upper (n : quoted_name) : n.upper.upper = n.upper := by
  by_cases h : n.quote = true
  · rw [upper_of_quoted h, upper_of_quoted h]
  · have h2 : n.quote = false := by simpa using h
    rw [upper_of_plain h2, upper_of_plain rfl]
    refine congrArg (quoted_name.mk · false) ?_
    rw [List.map_map]
    exact List.map_congr_left (fun a _ => toUpper_toUpper a)

theorem normalize_name_some (n : quoted_name) :
    normalize_name (some n) =
      if (n.upper).s = n.s ∧ requires_quotes ((n.lower).s) = false then some n.lower
      else if (n.lower).s = n.s then some ⟨n.s, true⟩
      else some n := rfl

theorem denormalize_name_some (n : quoted_name) :
    denormalize_name (some n) =
      if (n.lower).s = n.s ∧ requires_quotes ((n.lower).s) = false then some n.upper
      else some n := rfl

theorem exists_ne_of_map_ne {f : Char → Char} {l : List Char} (h : l.map f ≠ l) :
    ∃ x ∈ l, f x ≠ x := by
  by_contra hc
  push_neg at hc
  exact h (map_eq_self_iff_forall.mpr hc)

theorem requires_quotes_of_mixed {s : List Char}
    (hu : s.any isUpperAlpha = true) (hl : s.any isLowerAlpha = true) :
    requires_quotes s = true := by
  unfold requires_quotes
  rw [hu, hl]
  simp

theorem normalize_fix_quoted {n : quoted_name} (h : n.quote = true) :
    normalize_name (some n) = some n := by
  have he : (⟨n.s, true⟩ : quoted_name) = n := by cases n with | mk s q => simp [h.symm]
  rw [normalize_name_some]
  by_cases hr : requires_quotes ((n.lower).s) = false
  · rw [if_pos ⟨by rw [upper_of_quoted h], hr⟩, lower_of_quoted h]
  · rw [if_neg (fun hc => hr hc.2), if_pos (by rw [lower_of_quoted h]), he]

theorem denormalize_fix_quoted {n : quoted_name} (h : n.quote = true) :
    denormalize_name (some n) = some n := by
  rw [denormalize_name_some]
  by_cases hc : (n.lower).s = n.s ∧ requires_quotes ((n.lower).s) = false
  · rw [if_pos hc, upper_of_quoted h]
  · rw [if_neg hc]

theorem normalize_plain_upper {n : quoted_name}
    (hq : n.quote = false)
    (hu : n.s.map Char.toUpper = n.s)
    (hr : requires_quotes (n.s.map Char.toLower) = false) :
    normalize_name (some n) = some ⟨n.s.map Char.toLower, false⟩ := by
  have hl : n.lower = ⟨n.s.map Char.toLower, false⟩ := lower_of_plain hq
  have hu2 : (n.upper).s = n.s := by rw [upper_of_plain hq]; exact hu
  rw [normalize_name_some, if_pos ⟨hu2, by rw [hl]; exact hr⟩, hl]

/-! ### Claim theorems -/

/-- Claim C6: for every storage name that is entirely uppercase and whose
lower-cased form would not require quoting, `normalize_name` returns the
lower-cased form of the name, with no quoted flag. -/
theorem normalize_name_uppercase (n : quoted_name)
    (hq : n.quote = false)
    (hu : n.s.map Char.toUpper = n.s)
    (hr : requires_quotes (n.s.map Char.toLower) = false) :
    normalize_name (some n) = some ⟨n.s.map Char.toLower, false⟩ :=
  normalize_plain_upper hq hu hr

/-- Witness for C6: `MY_TABLE` normalizes to `my_table`, unflagged. -/
theorem normalize_name_uppercase_witness :
    normalize_name (some ⟨"MY_TABLE".toList, false⟩) = some ⟨"my_table".toList, false⟩ :=
  (normalize_name_uppercase ⟨"MY_TABLE".toList, false⟩ rfl (by decide) (by decide)).trans
    (by decide)

/-- Claim C3: for every storage name that is not entirely-uppercase-and-
quote-free-when-lower-cased: if it is entirely lowercase, `normalize_name`
returns it unchanged but flagged as explicitly quoted; otherwise it is
returned unchanged and it requires quoting as it stands. -/
theorem normalize_name_non_uppercase (n : quoted_name)
    (h : ¬((n.upper).s = n.s ∧ requires_quotes ((n.lower).s) = false)) :
    ((n.lower).s = n.s → normalize_name (some n) = some ⟨n.s, true⟩)
  ∧ ((n.lower).s ≠ n.s →
      normalize_name (some n) = some n ∧ requires_quotes n.s = true) := by
  constructor
  · intro hl
    rw [normalize_name_some, if_neg h, if_pos hl]
  · intro hl
    refine ⟨by rw [normalize_name_some, if_neg h, if_neg hl], ?_⟩
    have hq : n.quote = false := by
      by_contra hq
      have hq2 : n.quote = true := by simpa using hq
      rw [lower_of_quoted hq2] at hl
      exact hl rfl
    rw [lower_of_plain hq] at hl h
    rw [upper_of_plain hq] at h
    by_cases hreq : requires_quotes (n.s.map Char.toLower) = true
    · exact requires_quotes_mono _ hreq
    · have hreq2 : requires_quotes (n.s.map Char.toLower) = false := by
        simpa using hreq
      have hu : n.s.map Char.toUpper ≠ n.s := fun he => h ⟨he, hreq2⟩
      obtain ⟨c, hc, hcne⟩ := exists_ne_of_map_ne hu
      obtain ⟨d, hd, hdne⟩ := exists_ne_of_map_ne hl
      apply requires_quotes_of_mixed
      · exact List.any_eq_true.mpr ⟨d, hd, isUpperAlpha_of_toLower_ne hdne⟩
      · exact List.any_eq_true.mpr ⟨c, hc, isLowerAlpha_of_toUpper_ne hcne⟩

/-- Witness for C3: the mixed-case `Orders` is returned unchanged and
requires quoting; the lowercase `orders` is returned flagged. -/
theorem normalize_name_non_uppercase_witness :
    (normalize_name (some ⟨"Orders".toList, false⟩) = some ⟨"Orders".toList, false⟩
      ∧ requires_quotes "Orders".toList = true)
  ∧ normalize_name (some ⟨"orders".toList, false⟩) = some ⟨"orders".toList, true⟩ :=
  ⟨(normalize_name_non_uppercase ⟨"Orders".toList, false⟩ (by decide)).2 (by decide),
   (normalize_name_non_uppercase ⟨"orders".toList, false⟩ (by decide)).1 (by decide)⟩

/-- Claim C4: `denormalize_name` upper-cases an identifier that is entirely
lowercase and would not require quoting bare, and otherwise returns it
unchanged; explicitly quoted identifiers and identifiers that are not
entirely lowercase are returned verbatim. -/
theorem denormalize_name_cases (n : quoted_name) :
    (((n.lower).s = n.s ∧ requires_quotes ((n.lower).s) = false) →
       denormalize_name (some n) = some n.upper)
  ∧ (¬((n.lower).s = n.s ∧ requires_quotes ((n.lower).s) = false) →
       denormalize_name (some n) = some n)
  ∧ (n.quote = true → denormalize_name (some n) = some n)
  ∧ ((n.lower).s ≠ n.s → denormalize_name (some n) = some n) := by
  refine ⟨?_, ?_, fun hq => denormalize_fix_quoted hq, ?_⟩
  · intro h
    rw [denormalize_name_some, if_pos h]
  · intro h
    rw [denormalize_name_some, if_neg h]
  · intro h
    rw [denormalize_name_some, if_neg (fun hc => h hc.1)]

/-- Witness for C4: `abc` denormalizes to `ABC`; mixed-case `Orders` and
the quoted lowercase `orders` are returned verbatim. -/
theorem denormalize_name_cases_witness :
    denormalize_name (some ⟨"abc".toList, false⟩) = some ⟨"ABC".toList, false⟩
  ∧ denormalize_name (some ⟨"Orders".toList, false⟩) = some ⟨"Orders".toList, false⟩
  ∧ denormalize_name (some ⟨"orders".toList, true⟩) = some ⟨"orders".toList, true⟩ :=
  ⟨((denormalize_name_cases ⟨"abc".toList, false⟩).1 (by decide)).trans (by decide),
   (denormalize_name_cases ⟨"Orders".toList, false⟩).2.2.2 (by decide),
   (denormalize_name_cases ⟨"orders".toList, true⟩).2.2.1 rfl⟩

/-- Claim C9: `denormalize_name` is idempotent. -/
theorem denormalize_name_idempotent (n : Option quoted_name) :
    denormalize_name (denormalize_name n) = denormalize_name n := by
  match n with
  | none => rfl
  | some m =>
    rw [denormalize_name_some m]
    by_cases h : (m.lower).s = m.s ∧ requires_quotes ((m.lower).s) = false
    · rw [if_pos h, denormalize_name_some]
      by_cases h2 : (m.upper.lower).s = m.upper.s ∧
          requires_quotes ((m.upper.lower).s) = false
      · rw [if_pos h2, upper_upper]
      · rw [if_neg h2]
    · rw [if_neg h, denormalize_name_some, if_neg h]

/-- Claim C8: `normalize_name` and `denormalize_name` propagate absent
input as absent and the empty string as the empty string. -/
theorem normalize_denormalize_total_on_empty :
    normalize_name none = none
  ∧ denormalize_name none = none
  ∧ (normalize_name (some ⟨[], false⟩)).map quoted_name.s = some []
  ∧ denormalize_name (some ⟨[], false⟩) = some ⟨[], false⟩ := by
  refine ⟨rfl, rfl, by decide, by decide⟩

/-- Claim C1: on well-formed storage identifiers (entirely uppercase and
quote-free when lower-cased, or entirely lowercase and explicitly flagged
quoted), `denormalize_name` after `normalize_name` is the identity,
quote flag included. -/
theorem normalize_denormalize_roundtrip (n : quoted_name)
    (h : (n.quote = false ∧ n.s.map Char.toUpper = n.s ∧
            requires_quotes (n.s.map Char.toLower) = false)
       ∨ (n.quote = true ∧ n.s.map Char.toLower = n.s)) :
    denormalize_name (normalize_name (some n)) = some n := by
  rcases h with ⟨hq, hu, hr⟩ | ⟨hq, _⟩
  · rw [normalize_plain_upper hq hu hr]
    set l := n.s.map Char.toLower with hl
    have hll : ((⟨l, false⟩ : quoted_name).lower).s = l := by
      rw [lower_of_plain rfl]
      exact map_toLower_idem n.s
    rw [denormalize_name_some, if_pos ⟨hll, by rw [hll]; exact hr⟩]
    rw [upper_of_plain rfl]
    have hup : l.map Char.toUpper = n.s := by
      rw [hl, List.map_map]
      apply map_eq_self_iff_forall.mpr
      intro c hc
      exact toUpper_toLower_of_fix (map_eq_self_iff_forall.mp hu c hc)
    have hn : (⟨n.s, false⟩ : quoted_name) = n := by rw [← hq]
    rw [hup, hn]
  · rw [normalize_fix_quoted hq, denormalize_fix_quoted hq]

/-- Witness for C1: the uppercase `ABC` and the quoted lowercase `orders`
both round-trip. -/
theorem normalize_denormalize_roundtrip_witness :
    denormalize_name (normalize_name (some ⟨"ABC".toList, false⟩))
      = some ⟨"ABC".toList, false⟩
  ∧ denormalize_name (normalize_name (some ⟨"orders".toList, true⟩))
      = some ⟨"orders".toList, true⟩ :=
  ⟨normalize_denormalize_roundtrip ⟨"ABC".toList, false⟩ (Or.inl (by decide)),
   normalize_denormalize_roundtrip ⟨"orders".toList, true⟩ (Or.inr (by decide))⟩

theorem not_lower_of_upper {d : Char} (h : isUpperAlpha d = true) :
    isLowerAlpha d = false := by
  simp only [isUpperAlpha, Bool.and_eq_true, decide_eq_true_eq] at h
  rw [Bool.eq_false_iff]
  intro h2
  simp only [isLowerAlpha, Bool.and_eq_true, decide_eq_true_eq] at h2
  omega

theorem not_lower_of_digit {d : Char} (h : isDigitChar d = true) :
    isLowerAlpha d = false := by
  simp only [isDigitChar, Bool.and_eq_true, decide_eq_true_eq] at h
  rw [Bool.eq_false_iff]
  intro h2
  simp only [isLowerAlpha, Bool.and_eq_true, decide_eq_true_eq] at h2
  omega

/-- Counterexample to C2 as stated: `1A` consists only of uppercase
letters and digits and its lower-cased form is not reserved, yet it
requires quoting because it begins with a digit. -/
theorem requires_quoting_digit_start_cex :
    (∀ d ∈ ['1', 'A'], isUpperAlpha d = true ∨ isDigitChar d = true ∨ d = '_')
  ∧ reserved_words.contains (['1', 'A'].map Char.toLower) = false
  ∧ requires_quotes ['1', 'A'] = true := by decide

/-- Claim C2 (amended): for every identifier of uppercase letters, digits
and underscore that begins with a letter or underscore and whose
lower-cased form is not reserved, no quoting is required. -/
theorem requires_quoting_bare_uppercase (c : Char) (rest : List Char)
    (hhead : isUpperAlpha c = true ∨ c = '_')
    (hchars : ∀ d ∈ c :: rest, isUpperAlpha d = true ∨ isDigitChar d = true ∨ d = '_')
    (hres : reserved_words.contains ((c :: rest).map Char.toLower) = false) :
    requires_quotes (c :: rest) = false := by
  have hall : (c :: rest).all legalChar = true := by
    rw [List.all_eq_true]
    intro d hd
    rcases hchars d hd with h | h | h
    · simp [legalChar, h]
    · simp [legalChar, h]
    · subst h; decide
  have hfirst : legalFirstChar c = true := by
    rcases hhead with h | h
    · simp [legalFirstChar, h]
    · subst h; decide
  have hnolower : (c :: rest).any isLowerAlpha = false := by
    rw [List.any_eq_false]
    intro d hd
    rcases hchars d hd with h | h | h
    · simp [not_lower_of_upper h]
    · simp [not_lower_of_digit h]
    · subst h; decide
  unfold requires_quotes
  rw [hres, hall, hnolower]
  simp [hfirst]

/-- Witness for C2: `TAB_1` needs no quoting. -/
theorem requires_quoting_bare_uppercase_witness :
    requires_quotes ('T' :: "AB_1".toList) = false :=
  requires_quoting_bare_uppercase 'T' "AB_1".toList (by decide) (by decide) (by decide)

/-- Counterexample to C5 as stated: `qualify("public", "Orders")` does not
quote the first part, so the result is not `"public"."Orders"`. -/
theorem qualify_public_Orders_cex :
    _denormalize_quote_join [some ⟨"public".toList, false⟩, some ⟨"Orders".toList, false⟩]
      ≠ "\"public\".\"Orders\"".toList := by decide

/-- Claim C5 (amended): `_denormalize_quote_join` skips absent parts with
no stray separator, quotes each part independently exactly when that part
needs it, and on the spec examples: `(null, orders)` gives `orders`,
`(public, orders)` gives `public.orders`, and `(public, Orders)` gives
`public."Orders"` with only the second part quoted. -/
theorem qualify_spec (parts : List (Option quoted_name)) (p : quoted_name) :
    _denormalize_quote_join (none :: parts) = _denormalize_quote_join parts
  ∧ _denormalize_quote_join [some p] = quote_if_needed p
  ∧ _denormalize_quote_join [none, some ⟨"orders".toList, false⟩] = "orders".toList
  ∧ _denormalize_quote_join [some ⟨"public".toList, false⟩, some ⟨"orders".toList, false⟩]
      = "public.orders".toList
  ∧ _denormalize_quote_join [some ⟨"public".toList, false⟩, some ⟨"Orders".toList, false⟩]
      = "public.\"Orders\"".toList := by
  refine ⟨rfl, ?_, by decide, by decide, by decide⟩
  show List.intercalate ['.'] [quote_if_needed p] = quote_if_needed p
  simp [List.intercalate, List.intersperse]

/-- Claim C7: quoting an identifier that contains the quote character
wraps it in quotes and doubles every embedded quote. -/
theorem quote_if_needed_embedded_quote (i : quoted_name) (a b : List Char)
    (h : i.s = a ++ '"' :: b) :
    requires_quotes i.s = true ∧
    quote_if_needed i = '"' :: (escape_quotes a ++ '"' :: '"' :: escape_quotes b) ++ ['"'] := by
  have hmem : '"' ∈ i.s := by
    rw [h]
    exact List.mem_append_right _ (List.mem_cons_self _ _)
  have hleg : i.s.all legalChar = false := by
    rw [Bool.eq_false_iff]
    intro hall
    have h2 := List.all_eq_true.mp hall '"' hmem
    revert h2
    decide
  have hreq : requires_quotes i.s = true := by
    unfold requires_quotes
    rw [hleg]
    simp
  refine ⟨hreq, ?_⟩
  unfold quote_if_needed
  rw [hreq, Bool.or_true, if_pos rfl, h]
  unfold escape_quotes
  rw [List.flatMap_append, List.flatMap_cons]
  simp

/-- Witness for C7: `a"b` becomes `"a""b"`. -/
theorem quote_if_needed_embedded_quote_witness :
    quote_if_needed ⟨"a\"b".toList, false⟩ = "\"a\"\"b\"".toList :=
  ((quote_if_needed_embedded_quote ⟨"a\"b".toList, false⟩ ['a'] ['b'] (by decide)).2).trans
    (by decide)

theorem splitConsFirst_ne_nil (c : Char) (l : List (List Char)) :
    splitConsFirst c l ≠ [] := by
  cases l <;> simp [splitConsFirst]

theorem splitOnChar_ne_nil (sep : Char) (s : List Char) : splitOnChar sep s ≠ [] := by
  cases s with
  | nil => simp [splitOnChar]
  | cons c rest =>
    simp only [splitOnChar]
    split
    · simp
    · exact splitConsFirst_ne_nil c _

theorem splitOnChar_length (sep : Char) (s : List Char) :
    (splitOnChar sep s).length = s.count sep + 1 := by
  induction s with
  | nil => simp [splitOnChar]
  | cons c t ih =>
    simp only [splitOnChar]
    by_cases hc : c = sep
    · subst hc
      rw [if_pos rfl, List.count_cons_self]
      simp only [List.length_cons]
      omega
    · rw [if_neg hc, List.count_cons_of_ne (fun he => hc he.symm)]
      cases hsp : splitOnChar sep t with
      | nil => exact absurd hsp (splitOnChar_ne_nil sep t)
      | cons hd tl =>
        rw [hsp] at ih
        simp only [splitConsFirst, List.length_cons] at ih ⊢
        omega

theorem splitOnChar_of_count_zero {sep : Char} {s : List Char} (h : s.count sep = 0) :
    splitOnChar sep s = [s] := by
  induction s with
  | nil => rfl
  | cons c t ih =>
    have hc : c ≠ sep := by
      intro he
      subst he
      rw [List.count_cons_self] at h
      omega
    rw [List.count_cons_of_ne (fun he => hc he.symm)] at h
    simp only [splitOnChar]
    rw [if_neg hc, ih h]
    rfl

theorem splitOnChar_single_sep {sep : Char} {a b : List Char}
    (ha : a.count sep = 0) (hb : b.count sep = 0) :
    splitOnChar sep (a ++ sep :: b) = [a, b] := by
  induction a with
  | nil =>
    show splitOnChar sep (sep :: b) = [[], b]
    simp only [splitOnChar, if_true]
    rw [splitOnChar_of_count_zero hb]
  | cons c t ih =>
    have hc : c ≠ sep := by
      intro he
      subst he
      rw [List.count_cons_self] at ha
      omega
    rw [List.count_cons_of_ne (fun he => hc he.symm)] at ha
    show splitOnChar sep (c :: (t ++ sep :: b)) = [c :: t, b]
    simp only [splitOnChar]
    rw [if_neg hc, ih ha]
    rfl

/-- Claim C10: the `database` connect option errors exactly when it holds
two or more `/` separators; with exactly one, the part before becomes the
database and the part after the schema; with none it is left unchanged. -/
theorem create_connect_args_database_spec (db : List Char) :
    (create_connect_args_database db = none ↔ 2 ≤ db.count '/')
  ∧ (db.count '/' = 0 → create_connect_args_database db = some (db, none))
  ∧ (∀ a b, db = a ++ '/' :: b → a.count '/' = 0 → b.count '/' = 0 →
      create_connect_args_database db = some (a, some b)) := by
  refine ⟨?_, ?_, ?_⟩
  · have hlen := splitOnChar_length '/' db
    unfold create_connect_args_database
    cases hsp : splitOnChar '/' db with
    | nil => exact absurd hsp (splitOnChar_ne_nil '/' db)
    | cons x xs =>
      rw [hsp] at hlen
      cases xs with
      | nil =>
        simp only [List.length_cons, List.length_nil] at hlen
        simp
        omega
      | cons y ys =>
        cases ys with
        | nil =>
          simp only [List.length_cons, List.length_nil] at hlen
          simp
          omega
        | cons z zs =>
          simp only [List.length_cons] at hlen
          simp
          omega
  · intro h
    unfold create_connect_args_database
    rw [splitOnChar_of_count_zero h]
  · intro a b hdb ha hb
    subst hdb
    unfold create_connect_args_database
    rw [splitOnChar_single_sep ha hb]

/-- Witness for C10: `testdb/testschema` splits into database `testdb`
and schema `testschema`. -/
theorem create_connect_args_database_spec_witness :
    create_connect_args_database "testdb/testschema".toList
      = some ("testdb".toList, some "testschema".toList) :=
  (create_connect_args_database_spec "testdb/testschema".toList).2.2
    "testdb".toList "testschema".toList (by decide) (by decide) (by decide)

